import Mathlib

/-!
# Verification of the Persona-Chat sequenced audio playback pipeline

Shallow embedding of the client-side audio streaming pipeline:

* `SequenceBuffer` — the sequence reassembly buffer of
  `client/replit_integrations/audio/useAudioPlayback.ts`
  (`class SequenceBuffer`): a map from sequence numbers to payload lists
  plus a `nextSeq` counter, draining consecutive runs on each push.
* `RingBuffer` — the growable circular sample store of
  `client/replit_integrations/audio/audio-playback-worklet.js`.
* `AudioPlaybackProcessor` — the per-render-quantum step of the worklet.
* `decodePCM16ToFloat32` — the base64 PCM16 decoder of
  `client/replit_integrations/audio/audio-utils.ts`, together with a model
  of the platform `atob` (WHATWG forgiving-base64 decode) and of the
  `Int16Array`-over-buffer view (which requires an even byte length).
* `processLines` — the dispatch loop of `useVoiceStream.streamVoiceResponse`
  over parsed SSE records.

Samples are modelled as exact rationals: a 16-bit integer divided by the
power of two 32768 is represented exactly by an IEEE float, so the rational
model coincides with the JavaScript float arithmetic on every value the
decoder produces.
-/

namespace Pipeline

/-! ## Sequence reassembly buffer (`class SequenceBuffer`)

The JavaScript `Map<number, string[]>` is embedded as an association list
with unique keys (`Map.has`/`get` = first-match lookup, `Map.delete` =
filter, `Map.set` of a fresh key = append at the end).  The code only ever
looks keys up, never iterates the map, so insertion order is irrelevant to
behaviour. -/

/-- `pending` map: association list from sequence number to payload list. -/
abbrev Pending := List (Nat × List String)

/-- `Map.get`: value stored under a key, if present. -/
def lookupP (p : Pending) (k : Nat) : Option (List String) :=
  match p with
  | [] => none
  | e :: rest => if e.1 = k then some e.2 else lookupP rest k
/-- `Map.delete`: remove the entry with the given key. -/
def eraseP (p : Pending) (k : Nat) : Pending :=
  match p with
  | [] => []
  | e :: rest => if e.1 = k then eraseP rest k else e :: eraseP rest k

/-- The body of `SequenceBuffer.push` before the drain loop:
`if (!pending.has(seq)) pending.set(seq, []); pending.get(seq)!.push(data)` —
appends `d` to the list stored under `k`, creating the entry if absent. -/
def appendP (p : Pending) (k : Nat) (d : String) : Pending :=
  match p with
  | [] => [(k, [d])]
  | e :: rest => if e.1 = k then (e.1, e.2 ++ [d]) :: rest else e :: appendP rest k d

theorem lookupP_eraseP (p : Pending) (k k' : Nat) :
    lookupP (eraseP p k) k' = if k' = k then none else lookupP p k' := by
  induction p with
  | nil => simp [lookupP, eraseP]
  | cons e rest ih =>
    by_cases he : e.1 = k
    · by_cases hk' : k' = k
      · subst hk'
        simp [eraseP, he, ih]
      · have hkc : ¬ k = k' := fun hh => hk' hh.symm
        simp [eraseP, he, ih, hk', lookupP, hkc]
    · by_cases h1 : e.1 = k'
      · have hkk : ¬ k' = k := fun hh => he (h1.trans hh)
        simp [eraseP, he, lookupP, h1, hkk]
      · simp [eraseP, he, lookupP, h1, ih]

theorem lookupP_appendP (p : Pending) (k : Nat) (d : String) (k' : Nat) :
    lookupP (appendP p k d) k' =
      if k' = k then some (((lookupP p k).getD []) ++ [d]) else lookupP p k' := by
  induction p with
  | nil =>
    by_cases h : k' = k
    · simp [appendP, lookupP, h]
    · have hkc : ¬ k = k' := fun hh => h hh.symm
      simp [appendP, lookupP, h, hkc]
  | cons e rest ih =>
    by_cases he : e.1 = k
    · by_cases hk' : k' = k
      · subst hk'
        simp [appendP, he, lookupP]
      · have hkc : ¬ k = k' := fun hh => hk' hh.symm
        simp [appendP, he, lookupP, hkc, hk']
    · by_cases h1 : e.1 = k'
      · have hkk : ¬ k' = k := fun hh => he (h1.trans hh)
        simp [appendP, he, lookupP, h1, hkk]
      · simp [appendP, he, lookupP, h1, ih]

theorem length_eraseP_le (p : Pending) (k : Nat) : (eraseP p k).length ≤ p.length := by
  induction p with
  | nil => simp [eraseP]
  | cons e rest ih =>
    by_cases he : e.1 = k <;> simp [eraseP, he] <;> omega

theorem length_eraseP_lt (p : Pending) (k : Nat) (vs : List String)
    (h : lookupP p k = some vs) : (eraseP p k).length < p.length := by
  induction p with
  | nil => simp [lookupP] at h
  | cons e rest ih =>
    by_cases he : e.1 = k
    · have hle := length_eraseP_le rest k
      simp [eraseP, he]
      omega
    · simp only [lookupP, he, if_false] at h
      simp only [eraseP, he, if_false, List.length_cons]
      exact Nat.succ_lt_succ (ih h)

/-- State of the reassembly buffer: `pending` map and `nextSeq` counter. -/
structure SequenceBuffer where
  pending : Pending
  nextSeq : Nat
deriving Repr, DecidableEq

/-- Fresh buffer: empty map, `nextSeq = 0`. -/
def SequenceBuffer.init : SequenceBuffer := ⟨[], 0⟩

/-- The drain loop of `push`:
`while (pending.has(nextSeq)) { ready.push(...); delete; nextSeq++ }`.
Terminates because each iteration deletes a present key. -/
def drainLoop (p : Pending) (next : Nat) (acc : List String) :
    Pending × Nat × List String :=
  match h : lookupP p next with
  | some vs => drainLoop (eraseP p next) (next + 1) (acc ++ vs)
  | none => (p, next, acc)
termination_by p.length
decreasing_by
  exact length_eraseP_lt p next vs h

theorem drainLoop_none (p : Pending) (next : Nat) (acc : List String)
    (h : lookupP p next = none) : drainLoop p next acc = (p, next, acc) := by
  rw [drainLoop.eq_def]
  split <;> simp_all

theorem drainLoop_present (p : Pending) (next : Nat) (acc : List String) (vs : List String)
    (h : lookupP p next = some vs) :
    drainLoop p next acc = drainLoop (eraseP p next) (next + 1) (acc ++ vs) := by
  rw [drainLoop.eq_def]
  split <;> simp_all

/-- `SequenceBuffer.push(seq, data)`: store the payload, then drain the
consecutive run starting at `nextSeq`; returns the new state and the list
of payloads ready to play, in order. -/
def SequenceBuffer.push (sb : SequenceBuffer) (seq : Nat) (data : String) :
    SequenceBuffer × List String :=
  let p := appendP sb.pending seq data
  let r := drainLoop p sb.nextSeq []
  (⟨r.1, r.2.1⟩, r.2.2)

/-- `SequenceBuffer.reset()`: clear the map and reset `nextSeq` to 0. -/
def SequenceBuffer.reset (_sb : SequenceBuffer) : SequenceBuffer := ⟨[], 0⟩

/-- Push a list of `(seq, payload)` fragments one at a time, concatenating
the released payload lists in push order. -/
def pushAll (sb : SequenceBuffer) : List (Nat × String) → SequenceBuffer × List String
  | [] => (sb, [])
  | f :: rest =>
      let r := sb.push f.1 f.2
      let r' := pushAll r.1 rest
      (r'.1, r.2 ++ r'.2)

/-! ### Drain loop specification

Under the invariant that the pending map stores exactly the singleton
payload list `[payload k]` for every received key `k ≥ next` (received
keys collected in the set `T`), the drain loop releases the payloads of
the maximal consecutive run `next, next+1, …, m-1` inside `T` and leaves
the map holding exactly the keys of `T` that are `≥ m`. -/

/-- The pending map stores `[payload k]` exactly for the keys of `T` at or
above `next`. -/
def MapInv (payload : Nat → String) (T : Finset Nat) (next : Nat) (p : Pending) : Prop :=
  ∀ k, lookupP p k = if k ∈ T ∧ next ≤ k then some [payload k] else none

theorem drainLoop_spec_go (payload : Nat → String) (T : Finset Nat) :
    ∀ (n : Nat) (p : Pending), p.length ≤ n →
    ∀ (next : Nat) (acc : List String), MapInv payload T next p →
    ∃ (p' : Pending) (m : Nat), next ≤ m ∧ (∀ j, next ≤ j → j < m → j ∈ T) ∧ m ∉ T ∧
      drainLoop p next acc = (p', m, acc ++ (List.range' next (m - next)).map payload) ∧
      MapInv payload T m p' := by
  intro n
  induction n with
  | zero =>
    intro p hp next acc hinv
    have hpnil : p = [] := List.length_eq_zero.mp (Nat.le_zero.mp hp)
    subst hpnil
    have hnone : lookupP [] next = none := rfl
    have hnext : next ∉ T := by
      have := hinv next
      by_contra hc
      simp [hc, hnone] at this
    refine ⟨[], next, le_refl _, ?_, hnext, ?_, ?_⟩
    · intro j h1 h2; omega
    · rw [drainLoop_none _ _ _ hnone]; simp
    · simpa using hinv
  | succ n ih =>
    intro p hp next acc hinv
    rcases hcase : lookupP p next with _ | vs
    · have hnext : next ∉ T := by
        have := hinv next
        by_contra hc
        simp [hc, hcase] at this
      refine ⟨p, next, le_refl _, ?_, hnext, ?_, ?_⟩
      · intro j h1 h2; omega
      · rw [drainLoop_none _ _ _ hcase]; simp
      · simpa using hinv
    · have hmem : next ∈ T := by
        have := hinv next
        by_contra hc
        simp [hc, hcase] at this
      have hvs : vs = [payload next] := by
        have := hinv next
        simp [hmem, hcase] at this
        exact this
      have hinv' : MapInv payload T (next + 1) (eraseP p next) := by
        intro k
        rw [lookupP_eraseP]
        by_cases hk : k = next
        · simp [hk]
        · rw [hinv k]
          by_cases hkT : k ∈ T
          · by_cases hle : next ≤ k
            · have h2 : next + 1 ≤ k := by omega
              simp [hk, hkT, hle, h2]
            · have h2 : ¬ next + 1 ≤ k := by omega
              simp [hk, hkT, hle, h2]
          · simp [hk, hkT]
      have hlen : (eraseP p next).length ≤ n := by
        have := length_eraseP_lt p next vs hcase
        omega
      obtain ⟨p', m, hm1, hm2, hm3, hm4, hm5⟩ :=
        ih (eraseP p next) hlen (next + 1) (acc ++ vs) hinv'
      refine ⟨p', m, by omega, ?_, hm3, ?_, hm5⟩
      · intro j h1 h2
        by_cases hj : j = next
        · exact hj ▸ hmem
        · exact hm2 j (by omega) h2
      · rw [drainLoop_present _ _ _ _ hcase, hm4, hvs]
        have hrange : List.range' next (m - next) = next :: List.range' (next + 1) (m - (next + 1)) := by
          have hm : m - next = (m - (next + 1)) + 1 := by omega
          rw [hm, List.range'_succ]
        rw [hrange]
        simp

theorem drainLoop_spec (payload : Nat → String) (T : Finset Nat) (p : Pending)
    (next : Nat) (acc : List String) (hinv : MapInv payload T next p) :
    ∃ (p' : Pending) (m : Nat), next ≤ m ∧ (∀ j, next ≤ j → j < m → j ∈ T) ∧ m ∉ T ∧
      drainLoop p next acc = (p', m, acc ++ (List.range' next (m - next)).map payload) ∧
      MapInv payload T m p' :=
  drainLoop_spec_go payload T p.length p (le_refl _) next acc hinv

/-! ### Reordering correctness -/

/-- Invariant tying a buffer state to the set `S` of sequence numbers pushed
so far (each exactly once, with payload `payload s`): `nextSeq` is the least
number outside `S`, and the map stores exactly the received keys `≥ nextSeq`. -/
def GoodState (payload : Nat → String) (S : Finset Nat) (sb : SequenceBuffer) : Prop :=
  (∀ k, k < sb.nextSeq → k ∈ S) ∧ sb.nextSeq ∉ S ∧
    MapInv payload S sb.nextSeq sb.pending

theorem goodState_init (payload : Nat → String) :
    GoodState payload ∅ SequenceBuffer.init := by
  refine ⟨fun k hk => absurd hk (by simp [SequenceBuffer.init]), by simp, fun k => ?_⟩
  simp [SequenceBuffer.init, lookupP]

theorem push_step (payload : Nat → String) (S : Finset Nat) (sb : SequenceBuffer)
    (hg : GoodState payload S sb) (s : Nat) (hs : s ∉ S) :
    GoodState payload (insert s S) (sb.push s (payload s)).1 ∧
    (sb.push s (payload s)).2 =
      (List.range' sb.nextSeq ((sb.push s (payload s)).1.nextSeq - sb.nextSeq)).map payload ∧
    sb.nextSeq ≤ (sb.push s (payload s)).1.nextSeq := by
  obtain ⟨h1, h2, h3⟩ := hg
  have hns : sb.nextSeq ≤ s := by
    by_contra hc
    exact hs (h1 s (by omega))
  have hmap : MapInv payload (insert s S) sb.nextSeq (appendP sb.pending s (payload s)) := by
    intro k
    rw [lookupP_appendP]
    by_cases hk : k = s
    · subst hk
      have hnone : lookupP sb.pending k = none := by
        rw [h3 k]
        simp [hs]
      simp [hnone, hns, Finset.mem_insert_self]
    · rw [h3 k]
      simp [hk, Finset.mem_insert]
  obtain ⟨p', m, hm1, hm2, hm3, hm4, hm5⟩ :=
    drainLoop_spec payload (insert s S) (appendP sb.pending s (payload s)) sb.nextSeq [] hmap
  have hpush : sb.push s (payload s) =
      (⟨p', m⟩, (List.range' sb.nextSeq (m - sb.nextSeq)).map payload) := by
    simp [SequenceBuffer.push, hm4]
  rw [hpush]
  refine ⟨⟨?_, hm3, hm5⟩, by simp, hm1⟩
  intro k hk
  by_cases hkn : k < sb.nextSeq
  · exact Finset.mem_insert_of_mem (h1 k hkn)
  · exact hm2 k (by omega) hk

theorem range'_zero_append (a b : Nat) (h : a ≤ b) :
    List.range' 0 a ++ List.range' a (b - a) = List.range' 0 b := by
  have hab := List.range'_append 0 a (b - a) 1
  have hba : b - a + a = b := by omega
  have hba2 : a + (b - a) = b := by omega
  simpa [hba, hba2] using hab

theorem pushAll_spec (payload : Nat → String) :
    ∀ (l : List Nat) (S : Finset Nat) (sb : SequenceBuffer),
    GoodState payload S sb → (∀ x ∈ l, x ∉ S) → l.Nodup →
    GoodState payload (S ∪ l.toFinset) (pushAll sb (l.map fun s => (s, payload s))).1 ∧
    (List.range sb.nextSeq).map payload ++ (pushAll sb (l.map fun s => (s, payload s))).2 =
      (List.range (pushAll sb (l.map fun s => (s, payload s))).1.nextSeq).map payload := by
  intro l
  induction l with
  | nil =>
    intro S sb hg _ _
    simpa [pushAll] using hg
  | cons s rest ih =>
    intro S sb hg hnotin hnd
    obtain ⟨hg1, hout1, hle1⟩ :=
      push_step payload S sb hg s (hnotin s (List.mem_cons_self s rest))
    have hnotin' : ∀ x ∈ rest, x ∉ insert s S := by
      intro x hx
      rw [Finset.mem_insert]
      push_neg
      exact ⟨fun hxs => (List.nodup_cons.mp hnd).1 (hxs ▸ hx), hnotin x (List.mem_cons_of_mem s hx)⟩
    obtain ⟨hg2, hout2⟩ :=
      ih (insert s S) (sb.push s (payload s)).1 hg1 hnotin' (List.nodup_cons.mp hnd).2
    constructor
    · have hset : S ∪ (s :: rest).toFinset = insert s S ∪ rest.toFinset := by
        simp [List.toFinset_cons, Finset.union_insert, Finset.insert_union]
      rw [hset]
      simpa [pushAll] using hg2
    · have hmid : (List.range sb.nextSeq).map payload ++ (sb.push s (payload s)).2 =
          (List.range (sb.push s (payload s)).1.nextSeq).map payload := by
        rw [hout1, List.range_eq_range', List.range_eq_range', ← List.map_append,
          range'_zero_append _ _ hle1]
      simp only [pushAll, List.map_cons]
      calc (List.range sb.nextSeq).map payload ++
            ((sb.push s (payload s)).2 ++
              (pushAll (sb.push s (payload s)).1 (rest.map fun x => (x, payload x))).2)
          = ((List.range sb.nextSeq).map payload ++ (sb.push s (payload s)).2) ++
              (pushAll (sb.push s (payload s)).1 (rest.map fun x => (x, payload x))).2 := by
            rw [List.append_assoc]
        _ = (List.range (pushAll (sb.push s (payload s)).1
              (rest.map fun x => (x, payload x))).1.nextSeq).map payload := by
            rw [hmid, hout2]

/-- **C1**: pushing fragments with distinct sequence numbers `0..n-1` into a
fresh Sequence Reassembly Buffer in an arbitrary order releases, across all
pushes, exactly the payloads in sequence order `0, 1, …, n-1`. -/
theorem seqBuffer_reordering (n : Nat) (payload : Nat → String) (l : List Nat)
    (hperm : l.Perm (List.range n)) :
    (pushAll SequenceBuffer.init (l.map fun s => (s, payload s))).2 =
      (List.range n).map payload := by
  have hnd : l.Nodup := hperm.nodup_iff.mpr (List.nodup_range n)
  obtain ⟨hg, hout⟩ :=
    pushAll_spec payload l ∅ SequenceBuffer.init (goodState_init payload) (by simp) hnd
  have hfin : l.toFinset = Finset.range n := by
    ext a
    simp [List.mem_toFinset, hperm.mem_iff, Finset.mem_range, List.mem_range]
  rw [hfin] at hg
  obtain ⟨hg1, hg2, _⟩ := hg
  simp only [Finset.empty_union, Finset.mem_range, not_lt] at hg1 hg2
  have hn : (pushAll SequenceBuffer.init (l.map fun s => (s, payload s))).1.nextSeq = n := by
    set m := (pushAll SequenceBuffer.init (l.map fun s => (s, payload s))).1.nextSeq with hm
    by_cases hc : m < n
    · omega
    · by_cases hc2 : n < m
      · exact absurd (hg1 n hc2) (by omega)
      · omega
  have h0 : (List.range SequenceBuffer.init.nextSeq).map payload = [] := by
    simp [SequenceBuffer.init]
  rw [h0, List.nil_append] at hout
  rw [hout, hn]

/-- Witness for `seqBuffer_reordering`: fragments `2, 0, 1` released as
`payload 0, payload 1, payload 2`. -/
theorem seqBuffer_reordering_witness :
    (pushAll SequenceBuffer.init ([2, 0, 1].map fun s => (s, toString s))).2 =
      (List.range 3).map toString :=
  seqBuffer_reordering 3 toString [2, 0, 1] (by decide)

/-! ### Late arrivals and the `pending`-key invariant -/

theorem drainLoop_stale_go : ∀ (n : Nat) (p : Pending), p.length ≤ n →
    ∀ (next : Nat) (acc : List String),
    next ≤ (drainLoop p next acc).2.1 ∧
    ∀ k vs, k < next → lookupP p k = some vs →
      lookupP (drainLoop p next acc).1 k = some vs := by
  intro n
  induction n with
  | zero =>
    intro p hp next acc
    have hpnil : p = [] := List.length_eq_zero.mp (Nat.le_zero.mp hp)
    subst hpnil
    rw [drainLoop_none [] next acc rfl]
    exact ⟨le_refl _, fun k vs _ h => h⟩
  | succ n ih =>
    intro p hp next acc
    rcases hcase : lookupP p next with _ | vs
    · rw [drainLoop_none _ _ _ hcase]
      exact ⟨le_refl _, fun k vs _ h => h⟩
    · rw [drainLoop_present _ _ _ _ hcase]
      have hlen : (eraseP p next).length ≤ n := by
        have := length_eraseP_lt p next vs hcase
        omega
      obtain ⟨hle, hpres⟩ := ih (eraseP p next) hlen (next + 1) (acc ++ vs)
      refine ⟨by omega, fun k w hk hl => ?_⟩
      refine hpres k w (by omega) ?_
      rw [lookupP_eraseP]
      simp only [show ¬ k = next by omega, if_false]
      exact hl

/-- **C7** counterexample: after `push 0 "a"` the slot `0` is drained and
`nextExpected = 1`; a late `push 0 "b"` is then stored under key `0`, so the
pending map holds a key strictly below `nextExpected`, refuting the claimed
invariant "every key in `pending` is `>= nextExpected`". -/
theorem seqBuffer_key_below_next_cex :
    lookupP (((SequenceBuffer.init.push 0 "a").1.push 0 "b").1).pending 0 = some ["b"] ∧
    (((SequenceBuffer.init.push 0 "a").1.push 0 "b").1).nextSeq = 1 ∧
    ¬ (∀ k vs,
        lookupP (((SequenceBuffer.init.push 0 "a").1.push 0 "b").1).pending k = some vs →
        (((SequenceBuffer.init.push 0 "a").1.push 0 "b").1).nextSeq ≤ k) := by
  have e1 : drainLoop [(0, ["a"])] 0 [] = ([], 1, ["a"]) := by
    rw [drainLoop_present [(0, ["a"])] 0 [] ["a"] rfl]
    rw [show eraseP [(0, ["a"])] 0 = [] from rfl]
    rw [drainLoop_none [] 1 (([] : List String) ++ ["a"]) rfl]
    rfl
  have h1 : SequenceBuffer.init.push 0 "a" = (⟨[], 1⟩, ["a"]) := by
    have hr : SequenceBuffer.init.push 0 "a" =
        (⟨(drainLoop [(0, ["a"])] 0 []).1, (drainLoop [(0, ["a"])] 0 []).2.1⟩,
          (drainLoop [(0, ["a"])] 0 []).2.2) := rfl
    rw [hr, e1]
  have e2 : drainLoop [(0, ["b"])] 1 [] = ([(0, ["b"])], 1, []) :=
    drainLoop_none _ _ _ rfl
  have h2 : (⟨[], 1⟩ : SequenceBuffer).push 0 "b" = (⟨[(0, ["b"])], 1⟩, []) := by
    have hr : (⟨[], 1⟩ : SequenceBuffer).push 0 "b" =
        (⟨(drainLoop [(0, ["b"])] 1 []).1, (drainLoop [(0, ["b"])] 1 []).2.1⟩,
          (drainLoop [(0, ["b"])] 1 []).2.2) := rfl
    rw [hr, e2]
  rw [h1, h2]
  refine ⟨rfl, rfl, fun hall => ?_⟩
  have hc := hall 0 ["b"] rfl
  exact absurd hc (by decide)

/-- **C7** (amended): `nextExpected` never decreases across a push and
`reset` sets it to `0`; a key already stored strictly below `nextExpected`
stays in the pending map across any further push and stays strictly below
`nextExpected` — its payloads are never released. -/
theorem seqBuffer_stale_key (sb : SequenceBuffer) (seq s : Nat) (d : String)
    (hlt : s < sb.nextSeq) (hsome : (lookupP sb.pending s).isSome) :
    sb.nextSeq ≤ (sb.push seq d).1.nextSeq ∧
    sb.reset.nextSeq = 0 ∧
    (lookupP ((sb.push seq d).1).pending s).isSome ∧
    s < ((sb.push seq d).1).nextSeq := by
  obtain ⟨w, hw⟩ := Option.isSome_iff_exists.mp hsome
  have hex : ∃ w', lookupP (appendP sb.pending seq d) s = some w' := by
    rw [lookupP_appendP]
    by_cases h : s = seq
    · exact ⟨(lookupP sb.pending seq).getD [] ++ [d], by simp [h]⟩
    · exact ⟨w, by simp [h, hw]⟩
  obtain ⟨w', hw'⟩ := hex
  obtain ⟨hle, hpres⟩ :=
    drainLoop_stale_go (appendP sb.pending seq d).length _ (le_refl _) sb.nextSeq []
  have hpush1 : (sb.push seq d).1.nextSeq =
      (drainLoop (appendP sb.pending seq d) sb.nextSeq []).2.1 := rfl
  have hpush2 : (sb.push seq d).1.pending =
      (drainLoop (appendP sb.pending seq d) sb.nextSeq []).1 := rfl
  refine ⟨by rw [hpush1]; exact hle, rfl, ?_, by rw [hpush1]; omega⟩
  rw [hpush2, hpres s w' hlt hw']
  rfl

/-- Witness for `seqBuffer_stale_key` at the concrete state reached in the
counterexample: `pending = [(0, ["b"])]`, `nextExpected = 1`, pushing `5, "x"`. -/
theorem seqBuffer_stale_key_witness :
    ((0 : Nat) < (⟨[(0, ["b"])], 1⟩ : SequenceBuffer).nextSeq) ∧
    (lookupP (⟨[(0, ["b"])], 1⟩ : SequenceBuffer).pending 0).isSome ∧
    ((⟨[(0, ["b"])], 1⟩ : SequenceBuffer).nextSeq ≤
        ((⟨[(0, ["b"])], 1⟩ : SequenceBuffer).push 5 "x").1.nextSeq ∧
      (⟨[(0, ["b"])], 1⟩ : SequenceBuffer).reset.nextSeq = 0 ∧
      (lookupP (((⟨[(0, ["b"])], 1⟩ : SequenceBuffer).push 5 "x").1).pending 0).isSome ∧
      0 < (((⟨[(0, ["b"])], 1⟩ : SequenceBuffer).push 5 "x").1).nextSeq) :=
  ⟨by decide, by decide, seqBuffer_stale_key ⟨[(0, ["b"])], 1⟩ 5 0 "x" (by decide) (by decide)⟩

/-! ## Ring buffer (`class RingBuffer` in `audio-playback-worklet.js`)

The `Float32Array` storage is modelled as a total function `Nat → ℚ`
(`new Float32Array(n)` is zero-initialised, hence `fun i => 0`); the code
only ever reads indices below `capacity`.  Samples are exact rationals. -/

structure RingBuffer where
  capacity : Nat
  buffer : Nat → ℚ
  readIndex : Nat
  writeIndex : Nat
  availableData : Nat

/-- `constructor(initialCapacity)`. -/
def RingBuffer.init (initialCapacity : Nat) : RingBuffer :=
  ⟨initialCapacity, fun _ => 0, 0, 0, 0⟩

/-- `grow()`: double the capacity, copy the unread content to the front of a
fresh zeroed buffer, reset `readIndex` to 0. -/
def RingBuffer.grow (rb : RingBuffer) : RingBuffer :=
  ⟨rb.capacity * 2,
    fun i => if i < rb.availableData
      then rb.buffer ((rb.readIndex + i) % rb.capacity) else 0,
    0, rb.availableData, rb.availableData⟩

/-- The `while (availableData + len > capacity) grow()` loop at the head of
`push`.  The `0 < capacity` conjunct is the loop's termination condition: with
a zero capacity the JavaScript loop never exits, and every buffer the worklet
constructs has positive capacity. -/
def growWhile (rb : RingBuffer) (len : Nat) : RingBuffer :=
  if h : rb.availableData + len > rb.capacity ∧ 0 < rb.capacity then
    growWhile rb.grow len
  else rb
termination_by rb.availableData + len - rb.capacity
decreasing_by
  simp only [RingBuffer.grow]
  omega

/-- One iteration of the write loop in `push`:
`buffer[writeIndex] = x; writeIndex = (writeIndex + 1) % capacity; availableData++`. -/
def writeOne (rb : RingBuffer) (x : ℚ) : RingBuffer :=
  { rb with
    buffer := fun i => if i = rb.writeIndex then x else rb.buffer i
    writeIndex := (rb.writeIndex + 1) % rb.capacity
    availableData := rb.availableData + 1 }

/-- `push(data)`: grow until the block fits, then write the samples one at a
time at `writeIndex`. -/
def RingBuffer.push (rb : RingBuffer) (data : List ℚ) : RingBuffer :=
  List.foldl writeOne (growWhile rb data.length) data

/-- The copy loop of `pull`: read `m` samples starting at `readIndex`,
advancing it modulo `capacity`. -/
def pullReal (rb : RingBuffer) : Nat → RingBuffer × List ℚ
  | 0 => (rb, [])
  | m + 1 =>
      let x := rb.buffer rb.readIndex
      let rb' := { rb with readIndex := (rb.readIndex + 1) % rb.capacity }
      let r := pullReal rb' m
      (r.1, x :: r.2)

/-- `pull(outputBuffer)`: copy `min(len, availableData)` real samples, pad the
rest of the output with zeros, decrement `availableData`, and report whether
any real data was written.  The returned list is the final content of the
caller's output region of length `len`. -/
def RingBuffer.pull (rb : RingBuffer) (len : Nat) : RingBuffer × List ℚ × Bool :=
  let m := min len rb.availableData
  let r := pullReal rb m
  ({ r.1 with availableData := rb.availableData - m },
    r.2 ++ List.replicate (len - m) 0,
    decide (0 < m))

/-- `available()`. -/
def RingBuffer.available (rb : RingBuffer) : Nat := rb.availableData

/-- `clear()`: reset the indices; the storage is kept. -/
def RingBuffer.clear (rb : RingBuffer) : RingBuffer :=
  { rb with readIndex := 0, writeIndex := 0, availableData := 0 }

/-- Abstraction: the queue of unread samples, front first. -/
def absQueue (rb : RingBuffer) : List ℚ :=
  (List.range rb.availableData).map
    (fun i => rb.buffer ((rb.readIndex + i) % rb.capacity))

/-- Structural invariant of the ring buffer (C6's predicate plus the two
facts that make the modular index arithmetic meaningful: positive capacity
and an in-range read index). -/
def RBInv (rb : RingBuffer) : Prop :=
  0 < rb.capacity ∧ rb.availableData ≤ rb.capacity ∧
    rb.writeIndex = (rb.readIndex + rb.availableData) % rb.capacity ∧
    rb.readIndex < rb.capacity

theorem grow_spec (rb : RingBuffer) (hinv : RBInv rb) :
    RBInv rb.grow ∧ absQueue rb.grow = absQueue rb ∧
    rb.grow.readIndex = 0 ∧ rb.grow.availableData = rb.availableData ∧
    rb.grow.capacity = rb.capacity * 2 := by
  obtain ⟨hc, ha, hw, hr⟩ := hinv
  refine ⟨⟨by simp [RingBuffer.grow]; omega, by simp [RingBuffer.grow]; omega, ?_, ?_⟩,
    ?_, rfl, rfl, rfl⟩
  · show rb.availableData = (0 + rb.availableData) % (rb.capacity * 2)
    rw [Nat.zero_add, Nat.mod_eq_of_lt (by omega)]
  · show (0 : Nat) < rb.capacity * 2
    omega
  · show (List.range rb.availableData).map
        (fun i => (if (0 + i) % (rb.capacity * 2) < rb.availableData
          then rb.buffer ((rb.readIndex + (0 + i) % (rb.capacity * 2)) % rb.capacity)
          else 0)) = absQueue rb
    unfold absQueue
    apply List.map_congr_left
    intro i hi
    have hi' : i < rb.availableData := List.mem_range.mp hi
    have h1 : i % (rb.capacity * 2) = i := Nat.mod_eq_of_lt (by omega)
    simp [h1, hi']

theorem growWhile_spec_go : ∀ (n : Nat) (rb : RingBuffer) (len : Nat),
    rb.availableData + len - rb.capacity ≤ n → RBInv rb →
    RBInv (growWhile rb len) ∧ absQueue (growWhile rb len) = absQueue rb ∧
    (growWhile rb len).availableData = rb.availableData ∧
    (growWhile rb len).availableData + len ≤ (growWhile rb len).capacity := by
  intro n
  induction n with
  | zero =>
    intro rb len hm hinv
    have hfits : ¬ (rb.availableData + len > rb.capacity ∧ 0 < rb.capacity) := by
      intro hcond
      omega
    rw [growWhile.eq_def, dif_neg hfits]
    exact ⟨hinv, rfl, rfl, by omega⟩
  | succ n ih =>
    intro rb len hm hinv
    by_cases hcond : rb.availableData + len > rb.capacity ∧ 0 < rb.capacity
    · rw [growWhile.eq_def, dif_pos hcond]
      obtain ⟨hg, habs, _, hav, hcap2⟩ := grow_spec rb hinv
      have hm' : rb.grow.availableData + len - rb.grow.capacity ≤ n := by
        rw [hav, hcap2]
        omega
      obtain ⟨g1, g2, g3, g4⟩ := ih rb.grow len hm' hg
      exact ⟨g1, g2.trans habs, by rw [g3, hav], g4⟩
    · rw [growWhile.eq_def, dif_neg hcond]
      refine ⟨hinv, rfl, rfl, ?_⟩
      obtain ⟨hc, -, -, -⟩ := hinv
      omega

theorem growWhile_spec (rb : RingBuffer) (len : Nat) (hinv : RBInv rb) :
    RBInv (growWhile rb len) ∧ absQueue (growWhile rb len) = absQueue rb ∧
    (growWhile rb len).availableData = rb.availableData ∧
    (growWhile rb len).availableData + len ≤ (growWhile rb len).capacity :=
  growWhile_spec_go (rb.availableData + len - rb.capacity) rb len (le_refl _) hinv

theorem writeOne_spec (rb : RingBuffer) (x : ℚ) (hinv : RBInv rb)
    (hroom : rb.availableData < rb.capacity) :
    RBInv (writeOne rb x) ∧ absQueue (writeOne rb x) = absQueue rb ++ [x] ∧
    (writeOne rb x).capacity = rb.capacity ∧
    (writeOne rb x).readIndex = rb.readIndex ∧
    (writeOne rb x).availableData = rb.availableData + 1 := by
  obtain ⟨hc, ha, hw, hr⟩ := hinv
  refine ⟨⟨hc, by simp [writeOne]; omega, ?_, hr⟩, ?_, rfl, rfl, rfl⟩
  · show (rb.writeIndex + 1) % rb.capacity =
      (rb.readIndex + (rb.availableData + 1)) % rb.capacity
    rw [hw, Nat.mod_add_mod, Nat.add_assoc]
  · show (List.range (rb.availableData + 1)).map
        (fun i => (if (rb.readIndex + i) % rb.capacity = rb.writeIndex then x
          else rb.buffer ((rb.readIndex + i) % rb.capacity))) = absQueue rb ++ [x]
    rw [List.range_succ, List.map_append]
    congr 1
    · unfold absQueue
      apply List.map_congr_left
      intro i hi
      have hi' : i < rb.availableData := List.mem_range.mp hi
      have hne : (rb.readIndex + i) % rb.capacity ≠ rb.writeIndex := by
        rw [hw]
        intro heq
        have hmod : i % rb.capacity = rb.availableData % rb.capacity :=
          Nat.ModEq.add_left_cancel' rb.readIndex heq
        rw [Nat.mod_eq_of_lt (by omega), Nat.mod_eq_of_lt (by omega)] at hmod
        omega
      simp [hne]
    · simp only [List.map_cons, List.map_nil]
      rw [hw]
      simp

theorem foldl_writeOne_spec : ∀ (data : List ℚ) (rb : RingBuffer), RBInv rb →
    rb.availableData + data.length ≤ rb.capacity →
    RBInv (List.foldl writeOne rb data) ∧
    absQueue (List.foldl writeOne rb data) = absQueue rb ++ data ∧
    (List.foldl writeOne rb data).capacity = rb.capacity ∧
    (List.foldl writeOne rb data).readIndex = rb.readIndex ∧
    (List.foldl writeOne rb data).availableData = rb.availableData + data.length := by
  intro data
  induction data with
  | nil =>
    intro rb hinv hcap
    exact ⟨hinv, by simp, rfl, rfl, by simp⟩
  | cons x rest ih =>
    intro rb hinv hcap
    simp only [List.length_cons] at hcap
    obtain ⟨h1, h2, h3, h4, h5⟩ := writeOne_spec rb x hinv (by omega)
    obtain ⟨g1, g2, g3, g4, g5⟩ := ih (writeOne rb x) h1 (by rw [h5, h3]; omega)
    simp only [List.foldl_cons]
    refine ⟨g1, ?_, by rw [g3, h3], by rw [g4, h4],
      by rw [g5, h5]; simp only [List.length_cons]; omega⟩
    rw [g2, h2, List.append_assoc]
    simp

theorem push_spec (rb : RingBuffer) (data : List ℚ) (hinv : RBInv rb) :
    RBInv (rb.push data) ∧ absQueue (rb.push data) = absQueue rb ++ data ∧
    (rb.push data).availableData = rb.availableData + data.length := by
  obtain ⟨w1, w2, w3, w4⟩ := growWhile_spec rb data.length hinv
  obtain ⟨f1, f2, f3, f4, f5⟩ := foldl_writeOne_spec data (growWhile rb data.length) w1 w4
  exact ⟨f1, by rw [show rb.push data = List.foldl writeOne (growWhile rb data.length) data
    from rfl, f2, w2], by rw [show rb.push data = List.foldl writeOne (growWhile rb data.length) data
    from rfl, f5, w3]⟩

theorem pullReal_spec : ∀ (m : Nat) (rb : RingBuffer), 0 < rb.capacity →
    rb.readIndex < rb.capacity →
    (pullReal rb m).2 =
      (List.range m).map (fun i => rb.buffer ((rb.readIndex + i) % rb.capacity)) ∧
    (pullReal rb m).1 = { rb with readIndex := (rb.readIndex + m) % rb.capacity } := by
  intro m
  induction m with
  | zero =>
    intro rb hc hr
    refine ⟨rfl, ?_⟩
    show rb = _
    have h0 : (rb.readIndex + 0) % rb.capacity = rb.readIndex := by
      rw [Nat.add_zero, Nat.mod_eq_of_lt hr]
    rw [h0]
  | succ m ih =>
    intro rb hc hr
    have hr' : (rb.readIndex + 1) % rb.capacity < rb.capacity := Nat.mod_lt _ hc
    obtain ⟨ih1, ih2⟩ :=
      ih { rb with readIndex := (rb.readIndex + 1) % rb.capacity } hc hr'
    constructor
    · show rb.buffer rb.readIndex ::
        (pullReal { rb with readIndex := (rb.readIndex + 1) % rb.capacity } m).2 = _
      rw [ih1, List.range_succ_eq_map]
      simp only [List.map_cons, List.map_map]
      congr 1
      · show rb.buffer rb.readIndex = rb.buffer ((rb.readIndex + 0) % rb.capacity)
        rw [Nat.add_zero, Nat.mod_eq_of_lt hr]
      · apply List.map_congr_left
        intro i _
        show rb.buffer (((rb.readIndex + 1) % rb.capacity + i) % rb.capacity) =
          rb.buffer ((rb.readIndex + (i + 1)) % rb.capacity)
        rw [Nat.mod_add_mod]
        have harg : rb.readIndex + 1 + i = rb.readIndex + (i + 1) := by omega
        rw [harg]
    · show (pullReal { rb with readIndex := (rb.readIndex + 1) % rb.capacity } m).1 = _
      rw [ih2]
      have : ((rb.readIndex + 1) % rb.capacity + m) % rb.capacity =
          (rb.readIndex + (m + 1)) % rb.capacity := by
        rw [Nat.mod_add_mod]
        congr 1
        omega
      rw [this]

theorem pull_spec (rb : RingBuffer) (len : Nat) (hinv : RBInv rb) :
    RBInv (rb.pull len).1 ∧
    (rb.pull len).2.1 =
      (absQueue rb).take (min len rb.availableData) ++
        List.replicate (len - min len rb.availableData) 0 ∧
    absQueue (rb.pull len).1 = (absQueue rb).drop (min len rb.availableData) ∧
    (rb.pull len).2.2 = decide (0 < min len rb.availableData) ∧
    (rb.pull len).1.availableData = rb.availableData - min len rb.availableData ∧
    (rb.pull len).1.capacity = rb.capacity ∧
    (rb.pull len).2.1.length = len := by
  obtain ⟨hc, ha, hw, hr⟩ := hinv
  obtain ⟨hp1, hp2⟩ := pullReal_spec (min len rb.availableData) rb hc hr
  have hm : min len rb.availableData ≤ rb.availableData := Nat.min_le_right _ _
  have hst : (rb.pull len).1 =
      ⟨rb.capacity, rb.buffer, (rb.readIndex + min len rb.availableData) % rb.capacity,
        rb.writeIndex, rb.availableData - min len rb.availableData⟩ := by
    have e1 : (rb.pull len).1 =
        { (pullReal rb (min len rb.availableData)).1 with
          availableData := rb.availableData - min len rb.availableData } := rfl
    rw [e1, hp2]
  have hout : (rb.pull len).2.1 =
      (List.range (min len rb.availableData)).map
        (fun i => rb.buffer ((rb.readIndex + i) % rb.capacity)) ++
        List.replicate (len - min len rb.availableData) 0 := by
    have e2 : (rb.pull len).2.1 =
        (pullReal rb (min len rb.availableData)).2 ++
          List.replicate (len - min len rb.availableData) 0 := rfl
    rw [e2, hp1]
  have hflag : (rb.pull len).2.2 = decide (0 < min len rb.availableData) := rfl
  have htake : (absQueue rb).take (min len rb.availableData) =
      (List.range (min len rb.availableData)).map
        (fun i => rb.buffer ((rb.readIndex + i) % rb.capacity)) := by
    unfold absQueue
    rw [← List.map_take, List.take_range]
    have hmin : min (min len rb.availableData) rb.availableData = min len rb.availableData := by
      omega
    rw [hmin]
  have hsplitn : rb.availableData =
      min len rb.availableData + (rb.availableData - min len rb.availableData) := by
    omega
  have habs_split : absQueue rb =
      (List.range (min len rb.availableData)).map
        (fun i => rb.buffer ((rb.readIndex + i) % rb.capacity)) ++
      (List.range (rb.availableData - min len rb.availableData)).map
        (fun i => rb.buffer ((rb.readIndex + (min len rb.availableData + i)) % rb.capacity)) := by
    conv_lhs => unfold absQueue; rw [hsplitn]
    rw [List.range_add, List.map_append, List.map_map]
    congr 1
  refine ⟨?_, ?_, ?_, hflag, ?_, ?_, ?_⟩
  · rw [hst]
    refine ⟨hc, by simp; omega, ?_, Nat.mod_lt _ hc⟩
    show rb.writeIndex = ((rb.readIndex + min len rb.availableData) % rb.capacity +
        (rb.availableData - min len rb.availableData)) % rb.capacity
    rw [hw, Nat.mod_add_mod]
    congr 1
    omega
  · rw [hout, htake]
  · rw [hst, habs_split]
    rw [List.drop_left' (by simp)]
    show (List.range (rb.availableData - min len rb.availableData)).map
        (fun i => rb.buffer
          (((rb.readIndex + min len rb.availableData) % rb.capacity + i) % rb.capacity)) = _
    apply List.map_congr_left
    intro i _
    show rb.buffer
        (((rb.readIndex + min len rb.availableData) % rb.capacity + i) % rb.capacity) =
      rb.buffer ((rb.readIndex + (min len rb.availableData + i)) % rb.capacity)
    rw [Nat.mod_add_mod, Nat.add_assoc]
  · rw [hst]
  · rw [hst]
  · rw [hout]
    simp

/-- **C9**: pulling an output region of length `k` from a ring buffer whose
available count is zero fills all `k` positions with zeros (silence) and
returns `false` (no real data written); the operation is total. -/
theorem ringBuffer_starvation (rb : RingBuffer) (k : Nat)
    (h : rb.availableData = 0) :
    (rb.pull k).2.1 = List.replicate k 0 ∧ (rb.pull k).2.2 = false := by
  have e2 : (rb.pull k).2.1 = (pullReal rb (min k rb.availableData)).2 ++
      List.replicate (k - min k rb.availableData) 0 := rfl
  have e3 : (rb.pull k).2.2 = decide (0 < min k rb.availableData) := rfl
  rw [e2, e3, h]
  simp [pullReal]

/-- Witness for `ringBuffer_starvation`: a fresh buffer of capacity 4,
pulling 3 frames. -/
theorem ringBuffer_starvation_witness :
    (RingBuffer.init 4).availableData = 0 ∧
    (((RingBuffer.init 4).pull 3).2.1 = List.replicate 3 0 ∧
      ((RingBuffer.init 4).pull 3).2.2 = false) :=
  ⟨rfl, ringBuffer_starvation (RingBuffer.init 4) 3 rfl⟩

/-- **C6**: the invariant `availableCount ≤ capacity` together with
`writeIndex = (readIndex + availableCount) % capacity` (here bundled in
`RBInv` with positivity of the capacity and the read-index range) holds
after construction and is preserved by `push` (growth included), `pull` and
`clear`; `available()` reads the state without changing it, and `grow`
resets `readIndex` to 0 while preserving `availableCount`. -/
theorem ringBuffer_invariant (c : Nat) (hc : 0 < c) (rb : RingBuffer)
    (hinv : RBInv rb) (data : List ℚ) (k : Nat) :
    RBInv (RingBuffer.init c) ∧
    RBInv (rb.push data) ∧
    RBInv (rb.pull k).1 ∧
    RBInv rb.clear ∧
    rb.grow.readIndex = 0 ∧
    rb.grow.availableData = rb.availableData := by
  refine ⟨⟨hc, by simp [RingBuffer.init], by simp [RingBuffer.init], ?_⟩,
    (push_spec rb data hinv).1, (pull_spec rb k hinv).1, ?_, rfl, rfl⟩
  · show (0 : Nat) < c
    exact hc
  · obtain ⟨h1, -, -, -⟩ := hinv
    exact ⟨h1, by simp [RingBuffer.clear], by simp [RingBuffer.clear], by
      show (0 : Nat) < rb.capacity
      exact h1⟩

/-- Witness for `ringBuffer_invariant`: a fresh buffer of capacity 4,
pushing two samples and pulling three. -/
theorem ringBuffer_invariant_witness :
    ((0 : Nat) < 4 ∧ RBInv (RingBuffer.init 4)) ∧
    (RBInv (RingBuffer.init 4) ∧
      RBInv ((RingBuffer.init 4).push [1, 2]) ∧
      RBInv ((RingBuffer.init 4).pull 3).1 ∧
      RBInv (RingBuffer.init 4).clear ∧
      (RingBuffer.init 4).grow.readIndex = 0 ∧
      (RingBuffer.init 4).grow.availableData = (RingBuffer.init 4).availableData) :=
  ⟨⟨by decide, by refine ⟨?_, ?_, ?_, ?_⟩ <;> decide⟩,
    ringBuffer_invariant 4 (by decide) (RingBuffer.init 4)
      (by refine ⟨?_, ?_, ?_, ?_⟩ <;> decide) [1, 2] 3⟩

/-! ### FIFO refinement for interleaved push/pull -/

/-- Interleavings of `push`/`pull` calls (no `clear`). -/
inductive RBOp where
  | push (data : List ℚ)
  | pull (len : Nat)

/-- Run the operations from a given state, collecting the *real*
(non-padding) samples each `pull` returns, in order. -/
def runOps (rb : RingBuffer) : List RBOp → RingBuffer × List ℚ
  | [] => (rb, [])
  | RBOp.push data :: rest => runOps (rb.push data) rest
  | RBOp.pull len :: rest =>
      let p := rb.pull len
      let r := runOps p.1 rest
      (r.1, p.2.1.take (min len rb.availableData) ++ r.2)

/-- Concatenation of all pushed blocks, in order. -/
def pushedConcat : List RBOp → List ℚ
  | [] => []
  | RBOp.push data :: rest => data ++ pushedConcat rest
  | RBOp.pull _ :: rest => pushedConcat rest

theorem runOps_fifo : ∀ (ops : List RBOp) (rb : RingBuffer), RBInv rb →
    RBInv (runOps rb ops).1 ∧
    (runOps rb ops).2 ++ absQueue (runOps rb ops).1 =
      absQueue rb ++ pushedConcat ops := by
  intro ops
  induction ops with
  | nil =>
    intro rb hinv
    simpa [runOps, pushedConcat] using hinv
  | cons op rest ih =>
    intro rb hinv
    cases op with
    | push data =>
      obtain ⟨p1, p2, -⟩ := push_spec rb data hinv
      obtain ⟨g1, g2⟩ := ih (rb.push data) p1
      refine ⟨g1, ?_⟩
      simp only [runOps, pushedConcat]
      rw [g2, p2, List.append_assoc]
    | pull len =>
      obtain ⟨q1, q2, q3, -, -, -, -⟩ := pull_spec rb len hinv
      obtain ⟨g1, g2⟩ := ih (rb.pull len).1 q1
      refine ⟨g1, ?_⟩
      simp only [runOps, pushedConcat]
      have hreal : (rb.pull len).2.1.take (min len rb.availableData) =
          (absQueue rb).take (min len rb.availableData) := by
        rw [q2, List.take_left' ?_]
        simp [absQueue]
      rw [hreal, List.append_assoc, g2, q3, ← List.append_assoc,
        List.take_append_drop]

/-- **C5**: for every interleaving of `push` and `pull` calls (no `clear`)
starting from a fresh buffer of positive capacity, the real samples returned
by the pulls, in order, followed by the samples still buffered, equal the
concatenation of the pushed blocks — the pulls return the pushed samples in
exactly push order, across any number of capacity doublings.  If the final
buffer is empty (everything was pulled), the pulls returned exactly the
pushed concatenation. -/
theorem ringBuffer_fifo (c : Nat) (hc : 0 < c) (ops : List RBOp) :
    (runOps (RingBuffer.init c) ops).2 ++ absQueue (runOps (RingBuffer.init c) ops).1 =
      pushedConcat ops ∧
    ((runOps (RingBuffer.init c) ops).1.availableData = 0 →
      (runOps (RingBuffer.init c) ops).2 = pushedConcat ops) := by
  have hinv : RBInv (RingBuffer.init c) :=
    ⟨hc, by simp [RingBuffer.init], by simp [RingBuffer.init], hc⟩
  obtain ⟨h1, h2⟩ := runOps_fifo ops (RingBuffer.init c) hinv
  have habs0 : absQueue (RingBuffer.init c) = [] := by
    simp [absQueue, RingBuffer.init]
  rw [habs0, List.nil_append] at h2
  refine ⟨h2, fun hz => ?_⟩
  have hemp : absQueue (runOps (RingBuffer.init c) ops).1 = [] := by
    apply List.length_eq_zero.mp
    simp [absQueue, hz]
  rw [hemp, List.append_nil] at h2
  exact h2

/-- Witness for `ringBuffer_fifo`: capacity 2, pushing a block of three
samples (forcing a capacity doubling) and pulling them all back. -/
theorem ringBuffer_fifo_witness :
    (0 : Nat) < 2 ∧
    ((runOps (RingBuffer.init 2) [RBOp.push [1, 2, 3], RBOp.pull 5]).2 ++
        absQueue (runOps (RingBuffer.init 2) [RBOp.push [1, 2, 3], RBOp.pull 5]).1 =
        pushedConcat [RBOp.push [1, 2, 3], RBOp.pull 5] ∧
      ((runOps (RingBuffer.init 2) [RBOp.push [1, 2, 3], RBOp.pull 5]).1.availableData = 0 →
        (runOps (RingBuffer.init 2) [RBOp.push [1, 2, 3], RBOp.pull 5]).2 =
          pushedConcat [RBOp.push [1, 2, 3], RBOp.pull 5])) :=
  ⟨by decide, ringBuffer_fifo 2 (by decide) [RBOp.push [1, 2, 3], RBOp.pull 5]⟩

/-! ## Playback processor (`class AudioPlaybackProcessor`)

State of the worklet processor; `process()` is modelled by `renderStep`
(new state, rendered output channel, whether an `"ended"` message was
posted) and the `port.onmessage` handler by `handleMessage` (which posts
no messages at all — its type has no output component). -/

/-- Control messages accepted by the worklet (`event.data.type`). -/
inductive WorkletMsg where
  | audio (samples : List ℚ)
  | clear
  | streamComplete
  | stop

structure AudioPlaybackProcessor where
  ringBuffer : RingBuffer
  isPlaying : Bool
  streamComplete : Bool

/-- `constructor()`: 30 s of capacity at 24 kHz, idle, not complete. -/
def AudioPlaybackProcessor.init : AudioPlaybackProcessor :=
  ⟨RingBuffer.init (24000 * 30), false, false⟩

/-- The `port.onmessage` handler. -/
def handleMessage (st : AudioPlaybackProcessor) : WorkletMsg → AudioPlaybackProcessor
  | WorkletMsg.audio samples =>
      { st with ringBuffer := st.ringBuffer.push samples, isPlaying := true }
  | WorkletMsg.clear =>
      { st with
        ringBuffer := st.ringBuffer.clear
        isPlaying := false
        streamComplete := false }
  | WorkletMsg.streamComplete => { st with streamComplete := true }
  | WorkletMsg.stop => { st with isPlaying := false, streamComplete := false }

/-- One `process()` call rendering a quantum of `k` frames: if playing, pull
from the ring buffer; if the stream is complete and the buffer reports zero
available samples after the pull, go idle and post `"ended"` (the `Bool`
component); otherwise output silence. -/
def renderStep (st : AudioPlaybackProcessor) (k : Nat) :
    AudioPlaybackProcessor × List ℚ × Bool :=
  if st.isPlaying then
    let r := st.ringBuffer.pull k
    if st.streamComplete ∧ r.1.available = 0 then
      (⟨r.1, false, false⟩, r.2.1, true)
    else
      ({ st with ringBuffer := r.1 }, r.2.1, false)
  else
    (st, List.replicate k 0, false)

/-- **C4**: the `"ended"` message is posted exactly in a render step where
the processor is playing, the stream-complete flag is set, and the ring
buffer's available count is zero after that step's pull; a step that posts
it leaves a state whose next render step cannot post it again (at most once
per completion); and marking the stream complete while the buffer still
holds more than one quantum of samples does not make the following render
step post it.  The message handler itself posts nothing (its type has no
output). -/
theorem processor_ended_emission (st : AudioPlaybackProcessor) (k k' q : Nat) :
    ((renderStep st k).2.2 = true ↔
      st.isPlaying = true ∧ st.streamComplete = true ∧
        (st.ringBuffer.pull k).1.available = 0) ∧
    ((renderStep st k).2.2 = true → (renderStep (renderStep st k).1 k').2.2 = false) ∧
    (q < st.ringBuffer.availableData →
      (renderStep (handleMessage st WorkletMsg.streamComplete) q).2.2 = false) := by
  refine ⟨?_, ?_, ?_⟩
  · unfold renderStep
    by_cases hp : st.isPlaying
    · simp only [hp, if_true]
      by_cases hcond : st.streamComplete ∧ (st.ringBuffer.pull k).1.available = 0
      · simp [hcond, hp]
      · simp [hcond, hp]
    · simp [hp]
  · intro hemit
    unfold renderStep at hemit ⊢
    by_cases hp : st.isPlaying
    · simp only [hp, if_true] at hemit ⊢
      by_cases hcond : st.streamComplete ∧ (st.ringBuffer.pull k).1.available = 0
      · simp only [hcond, if_pos]
        simp
      · simp [hcond] at hemit
    · simp [hp] at hemit
  · intro hq
    have hmsg : handleMessage st WorkletMsg.streamComplete =
        { st with streamComplete := true } := rfl
    have hne : ¬ ((st.ringBuffer.pull q).1.available = 0) := by
      have e : (st.ringBuffer.pull q).1.available =
          st.ringBuffer.availableData - min q st.ringBuffer.availableData := rfl
      rw [e]
      omega
    rw [hmsg]
    unfold renderStep
    by_cases hp : st.isPlaying
    · simp [hp, hne]
    · simp [hp]

/-- Witness for `processor_ended_emission`: a playing, complete processor on
an empty buffer posts "ended" at the first render step and not at the next;
and completing while two samples are buffered does not post at the next
1-frame step. -/
theorem processor_ended_emission_witness :
    ((renderStep ⟨RingBuffer.init 8, true, true⟩ 2).2.2 = true ∧
      (renderStep (renderStep ⟨RingBuffer.init 8, true, true⟩ 2).1 2).2.2 = false) ∧
    (1 < (⟨⟨4, fun _ => 0, 0, 2, 2⟩, true, false⟩ :
        AudioPlaybackProcessor).ringBuffer.availableData ∧
      (renderStep (handleMessage
        (⟨⟨4, fun _ => 0, 0, 2, 2⟩, true, false⟩ : AudioPlaybackProcessor)
        WorkletMsg.streamComplete) 1).2.2 = false) := by
  have hfirst : (renderStep (⟨RingBuffer.init 8, true, true⟩ :
      AudioPlaybackProcessor) 2).2.2 = true :=
    (processor_ended_emission ⟨RingBuffer.init 8, true, true⟩ 2 2 2).1.mpr
      ⟨rfl, rfl, rfl⟩
  refine ⟨⟨hfirst, ?_⟩, ⟨by decide, ?_⟩⟩
  · exact (processor_ended_emission ⟨RingBuffer.init 8, true, true⟩ 2 2 2).2.1 hfirst
  · exact (processor_ended_emission ⟨⟨4, fun _ => 0, 0, 2, 2⟩, true, false⟩ 1 1 1).2.2
      (by decide)

/-! ## PCM16 decoder (`decodePCM16ToFloat32` in `audio-utils.ts`)

The platform `atob` is modelled by the WHATWG forgiving-base64 decode
(`none` models the thrown `InvalidCharacterError`); the
`new Int16Array(bytes.buffer)` view throws a `RangeError` when the byte
length is not a multiple of 2, so the decoder is `Except`-valued. -/

/-- Index of a character in the base64 alphabet. -/
def b64Index (c : Char) : Option Nat :=
  if 'A' ≤ c ∧ c ≤ 'Z' then some (c.toNat - 65)
  else if 'a' ≤ c ∧ c ≤ 'z' then some (c.toNat - 97 + 26)
  else if '0' ≤ c ∧ c ≤ '9' then some (c.toNat - 48 + 52)
  else if c = '+' then some 62
  else if c = '/' then some 63
  else none

/-- ASCII whitespace, removed by forgiving-base64 decode. -/
def isB64Ws (c : Char) : Bool :=
  c == ' ' || c == '\t' || c == '\n' || c == '\x0c' || c == '\r'

/-- Remove one or two trailing `=` when the length is a multiple of 4. -/
def stripPad (l : List Char) : List Char :=
  if l.length % 4 = 0 then
    match l.reverse with
    | '=' :: '=' :: rest => rest.reverse
    | '=' :: rest => rest.reverse
    | _ => l
  else l

/-- Map every character to its alphabet index; fail on a foreign character. -/
def sextets : List Char → Option (List Nat)
  | [] => some []
  | c :: rest =>
      match b64Index c, sextets rest with
      | some v, some vs => some (v :: vs)
      | _, _ => none

/-- Pack 6-bit groups into bytes; a final group of 2 or 3 sextets yields 1
or 2 bytes (leftover bits discarded), a lone trailing sextet is an error. -/
def packBytes : List Nat → Option (List Nat)
  | [] => some []
  | [_] => none
  | [a, b] => some [a * 4 + b / 16]
  | [a, b, c] => some [a * 4 + b / 16, b % 16 * 16 + c / 4]
  | a :: b :: c :: d :: rest =>
      (packBytes rest).map
        (fun r => (a * 4 + b / 16) :: (b % 16 * 16 + c / 4) :: (c % 4 * 64 + d) :: r)

/-- Model of the platform `atob`: forgiving-base64 decode to a byte list. -/
def atobDecode (s : String) : Option (List Nat) :=
  let t := stripPad (s.data.filter (fun c => ¬ isB64Ws c))
  if t.length % 4 = 1 then none
  else
    match sextets t with
    | some vs => packBytes vs
    | none => none

/-- Exceptions observable by the orchestrator's per-record `catch` (all
distinct from `SyntaxError`, which only `JSON.parse` produces). -/
inductive JsErr where
  | errorRecord (message : String)
  | invalidCharacter
  | rangeError
deriving DecidableEq, Repr

/-- Little-endian signed 16-bit values of consecutive byte pairs (the
`Int16Array` view over the byte buffer). -/
def int16OfBytes : List Nat → List Int
  | lo :: hi :: rest =>
      (if lo + 256 * hi < 32768 then (lo + 256 * hi : Int)
        else (lo + 256 * hi : Int) - 65536) :: int16OfBytes rest
  | [_] => []
  | [] => []

/-- `decodePCM16ToFloat32(base64Audio)`: `atob`, byte array, `Int16Array`
view (RangeError on an odd byte count), then division by 32768. -/
def decodePCM16ToFloat32 (s : String) : Except JsErr (List ℚ) :=
  match atobDecode s with
  | none => Except.error JsErr.invalidCharacter
  | some bytes =>
      if bytes.length % 2 = 0 then
        Except.ok ((int16OfBytes bytes).map (fun v => (Int.cast v : ℚ) / 32768))
      else Except.error JsErr.rangeError

/-- Reference value: the signed little-endian 16-bit integer formed by the
byte pair at positions `2*i`, `2*i + 1`. -/
def pcm16At (bytes : List Nat) (i : Nat) : Int :=
  let lo := bytes.getD (2 * i) 0
  let hi := bytes.getD (2 * i + 1) 0
  if lo + 256 * hi < 32768 then (lo + 256 * hi : Int) else (lo + 256 * hi : Int) - 65536

theorem int16OfBytes_length : ∀ (bytes : List Nat),
    (int16OfBytes bytes).length = bytes.length / 2
  | [] => rfl
  | [_] => by simp [int16OfBytes]
  | _ :: _ :: rest => by
    simp only [int16OfBytes, List.length_cons, int16OfBytes_length rest]
    omega

theorem int16OfBytes_getD : ∀ (bytes : List Nat) (i : Nat),
    i < (int16OfBytes bytes).length →
    (int16OfBytes bytes).getD i 0 = pcm16At bytes i
  | [], i, hi => by simp [int16OfBytes] at hi
  | [_], i, hi => by simp [int16OfBytes] at hi
  | lo :: hi :: rest, 0, _ => rfl
  | lo :: hi :: rest, j + 1, hj => by
    simp only [int16OfBytes, List.getD_cons_succ]
    rw [int16OfBytes_getD rest j (by simpa [int16OfBytes] using hj)]
    show pcm16At rest j = pcm16At (lo :: hi :: rest) (j + 1)
    unfold pcm16At
    have e1 : 2 * (j + 1) = 2 * j + 1 + 1 := by omega
    rw [e1]
    simp only [List.getD_cons_succ]

instance : DecidableEq (Except JsErr (List ℚ)) := fun a b =>
  match a, b with
  | Except.ok x, Except.ok y =>
      if h : x = y then Decidable.isTrue (congrArg Except.ok h)
      else Decidable.isFalse (fun hh => h (Except.ok.inj hh))
  | Except.error x, Except.error y =>
      if h : x = y then Decidable.isTrue (congrArg Except.error h)
      else Decidable.isFalse (fun hh => h (Except.error.inj hh))
  | Except.ok _, Except.error _ => Decidable.isFalse (fun hh => Except.noConfusion hh)
  | Except.error _, Except.ok _ => Decidable.isFalse (fun hh => Except.noConfusion hh)

/-- **C8** counterexample: `"AAAA"` is well-formed base64 (it decodes to the
three bytes `[0, 0, 0]`), yet the decoder throws: the `Int16Array` view over
a 3-byte buffer raises a `RangeError`.  This refutes "for every well-formed
base64 input it succeeds". -/
theorem decode_wellformed_base64_cex :
    atobDecode "AAAA" = some [0, 0, 0] ∧
    decodePCM16ToFloat32 "AAAA" = Except.error JsErr.rangeError := by
  constructor <;> decide

/-- **C8** (amended): on well-formed base64 of even byte count the decoder
returns the samples — one per 16-bit little-endian pair, each the signed
value divided by 32768; it fails with `InvalidCharacterError` exactly on
malformed base64, and with `RangeError` on well-formed base64 of odd byte
count. -/
theorem decodePCM16_spec (s : String) :
    (atobDecode s = none →
      decodePCM16ToFloat32 s = Except.error JsErr.invalidCharacter) ∧
    (∀ bytes, atobDecode s = some bytes →
      (bytes.length % 2 = 0 →
        ∃ out, decodePCM16ToFloat32 s = Except.ok out ∧
          out.length = bytes.length / 2 ∧
          ∀ i, i < out.length → out.getD i 0 = (pcm16At bytes i : ℚ) / 32768) ∧
      (bytes.length % 2 ≠ 0 →
        decodePCM16ToFloat32 s = Except.error JsErr.rangeError)) := by
  constructor
  · intro h
    simp [decodePCM16ToFloat32, h]
  · intro bytes hb
    constructor
    · intro heven
      refine ⟨(int16OfBytes bytes).map (fun v => (Int.cast v : ℚ) / 32768), ?_, ?_, ?_⟩
      · simp [decodePCM16ToFloat32, hb, heven]
      · rw [List.length_map, int16OfBytes_length]
      · intro i hi
        rw [List.length_map] at hi
        rw [List.getD_eq_getElem _ _ (by rw [List.length_map]; exact hi),
          List.getElem_map]
        have h2 := int16OfBytes_getD bytes i hi
        rw [List.getD_eq_getElem _ _ hi] at h2
        rw [h2]
    · intro hodd
      simp [decodePCM16ToFloat32, hb, hodd]

/-- Witness for `decodePCM16_spec` at `"AAA="` (two zero bytes, one sample). -/
theorem decodePCM16_spec_witness :
    atobDecode "AAA=" = some [0, 0] ∧
    ((0 : Nat) % 2 = 0) ∧
    (∃ out, decodePCM16ToFloat32 "AAA=" = Except.ok out ∧
      out.length = ([0, 0] : List Nat).length / 2 ∧
      ∀ i, i < out.length → out.getD i 0 = (pcm16At [0, 0] i : ℚ) / 32768) :=
  ⟨by decide, by decide,
    ((decodePCM16_spec "AAA=").2 [0, 0] (by decide)).1 (by decide)⟩

/-! ## Stream orchestrator (`useVoiceStream.streamVoiceResponse`)

The dispatch loop over complete lines of the response body.  A line that
does not start with `"data: "` is skipped.  `JSON.parse` failure throws a
`SyntaxError`; the per-record `catch` swallows `SyntaxError`s and invokes
`onError` for every other exception — which are exactly the `error`
record's own `throw new Error(event.error)` and decode failures inside
`playback.pushAudio` — after which the `for` loop simply continues with
the next line.  Effects are modelled as a trace of `Action`s. -/

/-- A parsed SSE record, by its `type` field.  `seq` mirrors the wire
format's optional sequence number; the dispatch code never reads it. -/
inductive SSERecord where
  | userTranscript (data : String)
  | transcript (data : String)
  | audio (data : String) (seq : Option Nat)
  | done (transcript : String)
  | error (message : String)
  | unknown
deriving DecidableEq

/-- One line of the response body. -/
inductive StreamLine where
  | noData
  | malformed
  | record (r : SSERecord)
deriving DecidableEq

/-- Observable actions of the dispatch loop, in order. -/
inductive Action where
  | onUserTranscript (data : String)
  | onTranscript (delta full : String)
  | postAudio (samples : List ℚ)
  | signalComplete
  | onComplete (full : String)
  | onError (e : JsErr)
deriving DecidableEq

/-- Effects of one line given the running transcript: the new running
transcript and the emitted actions.  The `audio` case is
`playback.pushAudio(event.data)`: decode then post the samples to the
worklet; a decode failure propagates to the `catch`, which calls `onError`
(the exception is not a `SyntaxError`) — and processing continues. -/
def processLine (full : String) : StreamLine → String × List Action
  | StreamLine.noData => (full, [])
  | StreamLine.malformed => (full, [])
  | StreamLine.record (SSERecord.userTranscript d) =>
      (full, [Action.onUserTranscript d])
  | StreamLine.record (SSERecord.transcript d) =>
      (full ++ d, [Action.onTranscript d (full ++ d)])
  | StreamLine.record (SSERecord.audio d _) =>
      match decodePCM16ToFloat32 d with
      | Except.ok samples => (full, [Action.postAudio samples])
      | Except.error e => (full, [Action.onError e])
  | StreamLine.record (SSERecord.done _) =>
      (full, [Action.signalComplete, Action.onComplete full])
  | StreamLine.record (SSERecord.error m) =>
      (full, [Action.onError (JsErr.errorRecord m)])
  | StreamLine.record SSERecord.unknown => (full, [])

/-- The `for (const line of lines)` loop: thread the running transcript,
concatenating the emitted actions. -/
def processLines (full : String) : List StreamLine → String × List Action
  | [] => (full, [])
  | line :: rest =>
      let r := processLine full line
      let r' := processLines r.1 rest
      (r'.1, r.2 ++ r'.2)

/-- **C2** counterexample: the stream `error "boom"` followed by
`transcript "x"`.  The `error` record's `throw new Error(...)` is caught by
the per-record `catch`, which invokes `onError` — and the loop continues,
dispatching the `transcript` record.  This refutes "no record that appears
after the error record is parsed or dispatched". -/
theorem error_record_terminates_cex :
    processLines "" [StreamLine.record (SSERecord.error "boom"),
        StreamLine.record (SSERecord.transcript "x")] =
      ("x", [Action.onError (JsErr.errorRecord "boom"), Action.onTranscript "x" "x"]) := by
  decide

/-- **C2** (amended): an `error` record invokes the caller's error callback
with the error, and processing continues: the records after it are
dispatched exactly as they would be on their own. -/
theorem error_record_continues (full m : String) (rest : List StreamLine) :
    processLines full (StreamLine.record (SSERecord.error m) :: rest) =
      ((processLines full rest).1,
        Action.onError (JsErr.errorRecord m) :: (processLines full rest).2) := rfl

/-- **C3** counterexample: two audio records carrying sequence numbers 1
then 0 are handed to playback in arrival order through `pushAudio`, with no
sequence number attached: the samples of the `seq = 1` record are posted
first, not in sequence order. -/
theorem orchestrator_ignores_seq_cex :
    processLines "" [StreamLine.record (SSERecord.audio "//8=" (some 1)),
        StreamLine.record (SSERecord.audio "AAA=" (some 0))] =
      ("", [Action.postAudio [(-1 : ℚ) / 32768], Action.postAudio [0]]) := by
  have h1 : decodePCM16ToFloat32 "//8=" = Except.ok [(-1 : ℚ) / 32768] := by
    have hb : atobDecode "//8=" = some [255, 255] := by decide
    simp [decodePCM16ToFloat32, hb, int16OfBytes]
  have h2 : decodePCM16ToFloat32 "AAA=" = Except.ok [(0 : ℚ)] := by
    have hb : atobDecode "AAA=" = some [0, 0] := by decide
    simp [decodePCM16ToFloat32, hb, int16OfBytes]
  simp [processLines, processLine, h1, h2]

/-- **C3** (amended): the orchestrator's `audio` case calls
`playback.pushAudio(event.data)` — payload only, never the sequenced path —
so for any run of audio records with decodable payloads the fragments are
posted to the worklet in arrival order, whatever their sequence numbers. -/
theorem orchestrator_audio_arrival_order (full : String)
    (recs : List (String × Option Nat)) (samples : String → List ℚ)
    (hdec : ∀ r ∈ recs, decodePCM16ToFloat32 r.1 = Except.ok (samples r.1)) :
    processLines full
        (recs.map (fun r => StreamLine.record (SSERecord.audio r.1 r.2))) =
      (full, recs.map (fun r => Action.postAudio (samples r.1))) := by
  induction recs with
  | nil => rfl
  | cons r rest ih =>
    have hline : processLine full (StreamLine.record (SSERecord.audio r.1 r.2)) =
        (full, [Action.postAudio (samples r.1)]) := by
      simp [processLine, hdec r (List.mem_cons_self r rest)]
    simp only [List.map_cons, processLines]
    rw [hline, ih (fun x hx => hdec x (List.mem_cons_of_mem r hx))]
    rfl

/-- Witness for `orchestrator_audio_arrival_order`: the two records of the
counterexample, posted in arrival order. -/
theorem orchestrator_audio_arrival_order_witness :
    (∀ r ∈ ([("//8=", some 1), ("AAA=", some 0)] : List (String × Option Nat)),
      decodePCM16ToFloat32 r.1 = Except.ok
        (if r.1 = "//8=" then [(-1 : ℚ) / 32768] else [0])) ∧
    processLines ""
        (([("//8=", some 1), ("AAA=", some 0)] : List (String × Option Nat)).map
          (fun r => StreamLine.record (SSERecord.audio r.1 r.2))) =
      ("", ([("//8=", some 1), ("AAA=", some 0)] : List (String × Option Nat)).map
        (fun r => Action.postAudio (if r.1 = "//8=" then [(-1 : ℚ) / 32768] else [0]))) := by
  have h1 : decodePCM16ToFloat32 "//8=" = Except.ok [(-1 : ℚ) / 32768] := by
    have hb : atobDecode "//8=" = some [255, 255] := by decide
    simp [decodePCM16ToFloat32, hb, int16OfBytes]
  have h2 : decodePCM16ToFloat32 "AAA=" = Except.ok [(0 : ℚ)] := by
    have hb : atobDecode "AAA=" = some [0, 0] := by decide
    simp [decodePCM16ToFloat32, hb, int16OfBytes]
  have hdec : ∀ r ∈ ([("//8=", some 1), ("AAA=", some 0)] : List (String × Option Nat)),
      decodePCM16ToFloat32 r.1 = Except.ok
        (if r.1 = "//8=" then [(-1 : ℚ) / 32768] else [0]) := by
    intro r hr
    rcases List.mem_cons.mp hr with h | hr2
    · subst h
      simpa using h1
    · rcases List.mem_cons.mp hr2 with h | h
      · subst h
        rw [if_neg (by decide)]
        simpa using h2
      · exact absurd h (List.not_mem_nil r)
  exact ⟨hdec, orchestrator_audio_arrival_order "" [("//8=", some 1), ("AAA=", some 0)]
    (fun s => if s = "//8=" then [(-1 : ℚ) / 32768] else [0]) hdec⟩

/-- **C10**: an `audio` record whose base64 payload makes `atob` throw
(`InvalidCharacterError`, not a `SyntaxError`) leads to the caller's error
callback with that exception, and the following records of the stream are
processed unchanged — a single undecodable fragment does not terminate
stream processing. -/
theorem bad_audio_continues (full d : String) (seq : Option Nat)
    (rest : List StreamLine) (hbad : atobDecode d = none) :
    processLines full (StreamLine.record (SSERecord.audio d seq) :: rest) =
      ((processLines full rest).1,
        Action.onError JsErr.invalidCharacter :: (processLines full rest).2) := by
  have hline : processLine full (StreamLine.record (SSERecord.audio d seq)) =
      (full, [Action.onError JsErr.invalidCharacter]) := by
    simp [processLine, decodePCM16ToFloat32, hbad]
  simp only [processLines]
  rw [hline]
  rfl

/-- Witness for `bad_audio_continues`: payload `"!!!!"` (invalid base64)
followed by a transcript record that is still dispatched. -/
theorem bad_audio_continues_witness :
    atobDecode "!!!!" = none ∧
    processLines "" [StreamLine.record (SSERecord.audio "!!!!" none),
        StreamLine.record (SSERecord.transcript "t")] =
      ((processLines "" [StreamLine.record (SSERecord.transcript "t")]).1,
        Action.onError JsErr.invalidCharacter ::
          (processLines "" [StreamLine.record (SSERecord.transcript "t")]).2) :=
  ⟨by decide, bad_audio_continues "" "!!!!" none
    [StreamLine.record (SSERecord.transcript "t")] (by decide)⟩

end Pipeline
